import Mathlib

/-!
# The persistent TTL cache of `simplecache.go`

A shallow embedding of `src/simplecache.go`:

* `time.Duration` and the nanosecond timestamps of `time.Now().UnixNano()` are `int64` in the
  source; here they are `Int`, and the one place where the source computes a new timestamp
  (`put`) wraps it into the signed 64-bit range with `wrapInt64`.
* the clock `time.Now().UnixNano()` is an explicit argument `now`; the merge loop of
  `loadFromFile`, which reads the clock once per entry, is taken at one reading, the load
  instant.
* the map of a cache is never `nil`: `New` makes it.
* a Go `map[string]cacheEntry` is an association list; `mapGet` is `m[k]` with its `found` flag,
  `mapSet` is `m[k] = v`, and `range m` visits the pairs of the list (any list that represents
  the map, so every iteration order is covered).
* the packages `os` and `encoding/gob` are external; their results are the fields of `Env`.
* the lock `c.mu` is left out of the sequential functions; the calls each method makes on it
  are the lists `getAccesses` and `putAccesses`, run by the interleaving `runSchedule`.
-/

namespace SimpleCache

/-! ## Constants and data model -/

/-- The constant `NoExpiration time.Duration = -1`. -/
def NoExpiration : Int := -1

/-- The constant `DefaultExpiration time.Duration = 0`. -/
def DefaultExpiration : Int := 0

/-- The struct `cacheEntry`: the payload and the absolute expiration timestamp. -/
structure cacheEntry where
  Value : String
  Expiration : Int
  deriving DecidableEq, Repr

/-- A Go `map[string]cacheEntry`, as the list of its key/value pairs. -/
abbrev Items := List (String × cacheEntry)

/-- The struct `simplecache` (the lock `mu` carries no data). -/
structure simplecache where
  defaultExpiration : Int
  items : Items
  deriving DecidableEq, Repr

/-- The Go expression `m[k]` in its two-result form: `none` is `found = false`. -/
def mapGet : Items → String → Option cacheEntry
  | [], _ => none
  | (k', e) :: rest, k => if k' = k then some e else mapGet rest k

/-- The Go statement `m[k] = v`: overwrite the entry of `k`, or add one. -/
def mapSet : Items → String → cacheEntry → Items
  | [], k, v => [(k, v)]
  | (k', e) :: rest, k, v => if k' = k then (k, v) :: rest else (k', e) :: mapSet rest k v

/-- The keys of a map. -/
def mapKeys (m : Items) : List String := m.map Prod.fst

/-- Signed 64-bit wrap-around of an integer result. -/
def wrapInt64 (x : Int) : Int := (x + 2 ^ 63) % 2 ^ 64 - 2 ^ 63

/-! ## Expiration, get, put, construction -/

/-- The method `cacheEntry.Expired`, with the clock reading as an argument. -/
def cacheEntry.Expired (ce : cacheEntry) (now : Int) : Bool :=
  if ce.Expiration = 0 then false
  else decide (now > ce.Expiration)

/-- The method `simplecache.get`, with the clock reading as an argument. -/
def get (c : simplecache) (now : Int) (key : String) : String × Bool :=
  match mapGet c.items key with
  | none => ("", false)
  | some item =>
    if item.Expiration > 0 then
      if now > item.Expiration then ("", false)
      else (item.Value, true)
    else (item.Value, true)

/-- The method `simplecache.put`, with the clock reading as an argument.
`time.Now().Add(expiration).UnixNano()` is the sum wrapped to 64 bits. -/
def put (c : simplecache) (now : Int) (key value : String) (expiration : Int) : simplecache :=
  let expiration := if expiration = DefaultExpiration then c.defaultExpiration else expiration
  let e : Int := if expiration > 0 then wrapInt64 (now + expiration) else 0
  { c with items := mapSet c.items key { Value := value, Expiration := e } }

/-- The function `newCache`. -/
def newCache (de : Int) (m : Items) : simplecache :=
  let de := if de = 0 then -1 else de
  { defaultExpiration := de, items := m }

/-- The function `New`. -/
def New (defaultExpiration : Int) : simplecache :=
  newCache defaultExpiration []

/-! ## The external world: `os` and `encoding/gob` -/

/-- A Go `error` value, tagged with the package that made it. -/
inductive GoError where
  | os (msg : String)
  | gob (msg : String)
  | errorf (msg : String)
  deriving DecidableEq, Repr

/-- The contents of a file. -/
abbrev Bytes := List Nat

/-- What `enc.Encode(&c.items)` can do: write a stream and return `nil`, return an error, or
panic. -/
inductive EncodeOutcome where
  | ok (stream : Bytes)
  | err (e : GoError)
  | panics
  deriving DecidableEq, Repr

/-- The behaviour of the calls that leave the package. -/
structure Env where
  /-- The call `os.Open(filePath)`: the file's contents, or an error. -/
  osOpen : String → Except GoError Bytes
  /-- The call `os.Create(filePath)`: `none` is a `nil` error. -/
  osCreate : String → Option GoError
  /-- The call `fp.Close()`: `none` is a `nil` error. -/
  fpClose : String → Option GoError
  /-- The call `dec.Decode(&items)` into a fresh map: the decoded map, or an error. -/
  gobDecode : Bytes → Except GoError Items
  /-- Whether `gob.Register(v.Value)` panics. -/
  gobRegisterPanics : String → Bool
  /-- The call `enc.Encode(&c.items)`. -/
  gobEncode : Items → EncodeOutcome

/-! ## loadFromFile -/

/-- One iteration of the merge loop of `loadFromFile`:
`ov, found := c.items[k]; if !found || ov.Expired() { c.items[k] = v }`. -/
def mergeStep (now : Int) (live : Items) (kv : String × cacheEntry) : Items :=
  match mapGet live kv.1 with
  | none => mapSet live kv.1 kv.2
  | some ov => if ov.Expired now then mapSet live kv.1 kv.2 else live

/-- The loop `for k, v := range items { ... }` of `loadFromFile`. -/
def mergeItems (now : Int) (live decoded : Items) : Items :=
  decoded.foldl (mergeStep now) live

/-- The method `simplecache.loadFromFile`: the returned error (`none` is `nil`) and the cache
after the call. -/
def loadFromFile (env : Env) (now : Int) (c : simplecache) (filePath : String) :
    Option GoError × simplecache :=
  match env.osOpen filePath with
  | .error err => (some err, c)
  | .ok stream =>
    match env.gobDecode stream with
    | .ok items => (env.fpClose filePath, { c with items := mergeItems now c.items items })
    | .error err => (some err, c)

/-! ## saveToFile -/

/-- The result of `saveToFile`: the returned error (`none` is `nil`), the cache after the call,
and the stream the encoder wrote (when it returned `nil`). -/
structure SaveResult where
  err : Option GoError
  cache : simplecache
  stream : Option Bytes
  /-- The value of the local variable `err` when the function is left. -/
  localErr : Option GoError
  deriving DecidableEq, Repr

/-- The error value the deferred function of `saveToFile` builds with `fmt.Errorf`. -/
def registerError : GoError := GoError.errorf "Error registering item types with Gob library"

/-- The method `simplecache.saveToFile`.

The result of the Go function is unnamed, and `err` is a local variable. When `gob.Register` or
`Encode` panics, the deferred function recovers and assigns the `fmt.Errorf` value to that
local; no `return` statement has run, so the caller receives the zero value of the result type,
`nil`. -/
def saveToFile (env : Env) (c : simplecache) (filePath : String) : SaveResult :=
  match env.osCreate filePath with
  | some err => { err := some err, cache := c, stream := none, localErr := some err }
  | none =>
    if c.items.any (fun kv => env.gobRegisterPanics kv.2.Value) then
      { err := none, cache := c, stream := none, localErr := some registerError }
    else
      match env.gobEncode c.items with
      | .panics => { err := none, cache := c, stream := none, localErr := some registerError }
      | .err err => { err := some err, cache := c, stream := none, localErr := some err }
      | .ok stream =>
        { err := env.fpClose filePath, cache := c, stream := some stream, localErr := none }

/-! ## get as a transition -/

/-- The call `c.get(key)` as a transition on the cache: the returned pair and the cache after
the call. The body of `get` reads `c.items` and assigns to no field of `c`. -/
def getStep (c : simplecache) (now : Int) (key : String) : (String × Bool) × simplecache :=
  (get c now key, c)

/-! ## Sequences of put calls -/

/-- One call `c.put(key, value, ttl)`, with the clock reading at which it runs. -/
structure PutCall where
  now : Int
  key : String
  value : String
  ttl : Int
  deriving DecidableEq, Repr

/-- A sequence of put calls, run in order on a cache. -/
def runPuts (c : simplecache) (calls : List PutCall) : simplecache :=
  calls.foldl (fun c p => put c p.now p.key p.value p.ttl) c

/-- The ttl that `put` resolves: the argument, or the default of the cache when the argument is
`DefaultExpiration` (the first `if` of `put`). -/
def resolvedTTL (c : simplecache) (ttl : Int) : Int :=
  if ttl = DefaultExpiration then c.defaultExpiration else ttl

/-! ## The lock discipline -/

/-- An access of a goroutine to the shared fields of a cache: a call on the lock `c.mu`, or a
read or a write of the map `c.items`. -/
inductive Access where
  | Lock
  | Unlock
  | RLock
  | RUnlock
  | readItems
  | writeItems
  deriving DecidableEq, Repr

/-- The accesses of `get`, in program order: the lookup `c.items[key]`. The body of `get` has no
call on `c.mu`. -/
def getAccesses : List Access := [Access.readItems]

/-- The accesses of `put`, in program order: `c.mu.Lock()`, the assignment `c.items[key] = ...`,
`c.mu.Unlock()`. -/
def putAccesses : List Access := [Access.Lock, Access.writeItems, Access.Unlock]

/-- The state of a `sync.RWMutex`: whether a writer holds it, and how many readers hold it. -/
structure RWMutex where
  writer : Bool
  readers : Nat
  deriving DecidableEq, Repr

/-- Goroutines that run against one cache: its lock and, for each goroutine, the accesses it has
still to make. -/
structure Goroutines where
  mu : RWMutex
  pending : List (List Access)
  deriving DecidableEq, Repr

/-- One step of goroutine `i`: it makes its next access. `none` when it has finished or waits
for the lock (`Lock` waits for the writer and all readers, `RLock` for the writer). -/
def stepGoroutine (s : Goroutines) (i : Nat) : Option Goroutines :=
  match s.pending[i]? with
  | some (a :: rest) =>
    match a with
    | Access.Lock =>
      if s.mu.writer = false ∧ s.mu.readers = 0 then
        some { mu := { writer := true, readers := 0 }, pending := s.pending.set i rest }
      else none
    | Access.Unlock =>
      some { mu := { s.mu with writer := false }, pending := s.pending.set i rest }
    | Access.RLock =>
      if s.mu.writer = false then
        some { mu := { s.mu with readers := s.mu.readers + 1 },
               pending := s.pending.set i rest }
      else none
    | Access.RUnlock =>
      some { mu := { s.mu with readers := s.mu.readers - 1 }, pending := s.pending.set i rest }
    | Access.readItems => some { s with pending := s.pending.set i rest }
    | Access.writeItems => some { s with pending := s.pending.set i rest }
  | _ => none

/-- The goroutines after a schedule, the list of the goroutines that step, in order. -/
def runSchedule (s : Goroutines) : List Nat → Option Goroutines
  | [] => some s
  | i :: rest =>
    match stepGoroutine s i with
    | some s' => runSchedule s' rest
    | none => none

/-- The next access of goroutine `i`. -/
def nextAccess (s : Goroutines) (i : Nat) : Option Access :=
  match s.pending[i]? with
  | some (a :: _) => some a
  | _ => none

/-- A data race on `c.items` between the goroutines `i` and `j`: the next access of each is
on the map, at least one is a write, and neither waits for the lock. -/
def dataRace (s : Goroutines) (i j : Nat) : Bool :=
  decide (i ≠ j) &&
    match nextAccess s i, nextAccess s j with
    | some Access.writeItems, some Access.readItems => true
    | some Access.readItems, some Access.writeItems => true
    | some Access.writeItems, some Access.writeItems => true
    | _, _ => false

/-- Every schedule of the goroutines `0` and `1` of length at most `n`. -/
def schedules : Nat → List (List Nat)
  | 0 => [[]]
  | n + 1 => [] :: (schedules n).flatMap (fun sch => [0 :: sch, 1 :: sch])

/-- Whether a schedule leads two goroutines into a data race. -/
def racesAfter (s : Goroutines) (schedule : List Nat) : Bool :=
  match runSchedule s schedule with
  | some s' => dataRace s' 0 1
  | none => false

/-! ## Lemmas on maps -/

theorem mapGet_mapSet_same (m : Items) (k : String) (v : cacheEntry) :
    mapGet (mapSet m k v) k = some v := by
  induction m with
  | nil => simp [mapSet, mapGet]
  | cons hd tl ih =>
    obtain ⟨k', e⟩ := hd
    by_cases h : k' = k
    · simp [mapSet, mapGet, h]
    · simp [mapSet, mapGet, h, ih]

theorem mapGet_mapSet_ne (m : Items) (k k' : String) (v : cacheEntry) (h : k' ≠ k) :
    mapGet (mapSet m k v) k' = mapGet m k' := by
  induction m with
  | nil => simp [mapSet, mapGet, Ne.symm h]
  | cons hd tl ih =>
    obtain ⟨k₀, e⟩ := hd
    by_cases h₀ : k₀ = k
    · subst h₀
      simp [mapSet, mapGet, Ne.symm h]
    · by_cases h₁ : k₀ = k'
      · subst h₁
        simp [mapSet, mapGet, h]
      · simp [mapSet, mapGet, h₀, h₁, ih]

theorem mapGet_eq_none_of_not_mem (m : Items) (k : String) (h : k ∉ mapKeys m) :
    mapGet m k = none := by
  induction m with
  | nil => rfl
  | cons hd tl ih =>
    obtain ⟨k', e⟩ := hd
    simp only [mapKeys, List.map_cons, List.mem_cons, not_or] at h
    have h' : k' ≠ k := fun hk => h.1 hk.symm
    simp only [mapGet, h', if_false]
    exact ih h.2

/-! ## Lemmas on get and on the merge loop -/

theorem get_of_absent (c : simplecache) (now : Int) (k : String)
    (h : mapGet c.items k = none) : get c now k = ("", false) := by
  simp [get, h]

theorem get_of_fresh (c : simplecache) (now : Int) (k : String) (e : cacheEntry)
    (h : mapGet c.items k = some e) (hfresh : e.Expiration = 0 ∨ now ≤ e.Expiration) :
    get c now k = (e.Value, true) := by
  simp only [get, h]
  split_ifs with h₁ h₂
  · omega
  · rfl
  · rfl

theorem get_of_positive_past (c : simplecache) (now : Int) (k : String) (e : cacheEntry)
    (h : mapGet c.items k = some e) (hpos : 0 < e.Expiration) (hpast : now > e.Expiration) :
    get c now k = ("", false) := by
  simp [get, h, hpos, hpast]

theorem expired_eq_false_iff (e : cacheEntry) (now : Int) :
    e.Expired now = false ↔ (e.Expiration = 0 ∨ now ≤ e.Expiration) := by
  unfold cacheEntry.Expired
  split_ifs with h
  · simp [h]
  · simp only [decide_eq_false_iff_not, not_lt, gt_iff_lt]
    constructor
    · intro h'
      exact Or.inr h'
    · rintro (h' | h')
      · exact absurd h' h
      · exact h'

theorem mergeStep_get_ne (now : Int) (m : Items) (kv : String × cacheEntry) (k : String)
    (h : kv.1 ≠ k) : mapGet (mergeStep now m kv) k = mapGet m k := by
  unfold mergeStep
  split
  · exact mapGet_mapSet_ne m kv.1 k kv.2 (Ne.symm h)
  · split_ifs
    · exact mapGet_mapSet_ne m kv.1 k kv.2 (Ne.symm h)
    · rfl

theorem mergeStep_get_absent (now : Int) (m : Items) (k : String) (v : cacheEntry)
    (h : mapGet m k = none) : mapGet (mergeStep now m (k, v)) k = some v := by
  simp [mergeStep, h, mapGet_mapSet_same]

theorem mergeStep_get_expired (now : Int) (m : Items) (k : String) (v ov : cacheEntry)
    (h : mapGet m k = some ov) (hexp : ov.Expired now = true) :
    mapGet (mergeStep now m (k, v)) k = some v := by
  simp [mergeStep, h, hexp, mapGet_mapSet_same]

theorem mergeStep_get_fresh (now : Int) (m : Items) (kv : String × cacheEntry) (k : String)
    (ov : cacheEntry) (h : mapGet m k = some ov) (hfresh : ov.Expired now = false) :
    mapGet (mergeStep now m kv) k = some ov := by
  by_cases hk : kv.1 = k
  · subst hk
    simp [mergeStep, h, hfresh]
  · rw [mergeStep_get_ne now m kv k hk, h]

theorem mergeItems_get_fresh (now : Int) (d m : Items) (k : String) (ov : cacheEntry)
    (h : mapGet m k = some ov) (hfresh : ov.Expired now = false) :
    mapGet (mergeItems now m d) k = some ov := by
  induction d generalizing m with
  | nil => simpa [mergeItems] using h
  | cons kv rest ih =>
    simp only [mergeItems, List.foldl_cons]
    exact ih (mergeStep now m kv) (mergeStep_get_fresh now m kv k ov h hfresh)

theorem mergeItems_get_not_mem (now : Int) (d m : Items) (k : String)
    (h : k ∉ mapKeys d) : mapGet (mergeItems now m d) k = mapGet m k := by
  induction d generalizing m with
  | nil => simp [mergeItems]
  | cons kv rest ih =>
    simp only [mapKeys, List.map_cons, List.mem_cons, not_or] at h
    simp only [mergeItems, List.foldl_cons]
    have h₁ := ih (mergeStep now m kv) h.2
    simp only [mergeItems] at h₁
    rw [h₁]
    exact mergeStep_get_ne now m kv k (fun hk => h.1 hk.symm)

theorem mem_mapKeys_of_mapGet (m : Items) (k : String) (e : cacheEntry)
    (h : mapGet m k = some e) : k ∈ mapKeys m := by
  by_contra hk
  rw [mapGet_eq_none_of_not_mem m k hk] at h
  exact Option.noConfusion h

/-- What the merge loop leaves under a key of the decoded map: the decoded entry when the live
map had no entry or an expired one. -/
theorem mergeItems_get_filled (now : Int) (d m : Items) (k : String) (v : cacheEntry)
    (hnodup : (mapKeys d).Nodup) (hd : mapGet d k = some v)
    (hlive : mapGet m k = none ∨ ∃ ov, mapGet m k = some ov ∧ ov.Expired now = true) :
    mapGet (mergeItems now m d) k = some v := by
  induction d generalizing m with
  | nil => simp [mapGet] at hd
  | cons kv rest ih =>
    obtain ⟨k', e⟩ := kv
    simp only [mapKeys, List.map_cons, List.nodup_cons] at hnodup
    simp only [mergeItems, List.foldl_cons]
    by_cases hk : k' = k
    · subst hk
      simp only [mapGet, if_true, Option.some.injEq] at hd
      subst hd
      have hrest := mergeItems_get_not_mem now rest (mergeStep now m (k', e)) k' hnodup.1
      simp only [mergeItems] at hrest
      rw [hrest]
      rcases hlive with h | ⟨ov, h, hexp⟩
      · exact mergeStep_get_absent now m k' e h
      · exact mergeStep_get_expired now m k' e ov h hexp
    · simp only [mapGet, hk, if_false] at hd
      have hstep : mapGet (mergeStep now m (k', e)) k = mapGet m k :=
        mergeStep_get_ne now m (k', e) k hk
      have := ih (mergeStep now m (k', e)) hnodup.2 hd (by rw [hstep]; exact hlive)
      simpa [mergeItems] using this

/-! ## Lemmas on put and saveToFile -/

theorem wrapInt64_of_fits (x : Int) (hlo : -2 ^ 63 ≤ x) (hhi : x < 2 ^ 63) :
    wrapInt64 x = x := by
  unfold wrapInt64
  rw [Int.emod_eq_of_lt (by omega) (by omega)]
  omega

theorem put_get_entry (c : simplecache) (now : Int) (k v : String) (expiration : Int) :
    mapGet (put c now k v expiration).items k
      = some ⟨v, if (if expiration = DefaultExpiration then c.defaultExpiration
          else expiration) > 0
        then wrapInt64 (now + (if expiration = DefaultExpiration then c.defaultExpiration
          else expiration))
        else 0⟩ := by
  simp only [put]
  exact mapGet_mapSet_same _ _ _

theorem put_defaultExpiration (c : simplecache) (now : Int) (k v : String) (expiration : Int) :
    (put c now k v expiration).defaultExpiration = c.defaultExpiration := rfl

/-- When the registration loop or the encoder panics, `saveToFile` returns `nil`; the
`fmt.Errorf` value stays in the local variable. -/
theorem saveToFile_recovered_panic (env : Env) (c : simplecache) (filePath : String)
    (hcreate : env.osCreate filePath = none)
    (hpanic : c.items.any (fun kv => env.gobRegisterPanics kv.2.Value) = true
      ∨ env.gobEncode c.items = .panics) :
    (saveToFile env c filePath).err = none
      ∧ (saveToFile env c filePath).localErr = some registerError := by
  unfold saveToFile
  rw [hcreate]
  rcases hpanic with h | h
  · simp only [h, if_true, and_self]
  · split_ifs
    · exact ⟨rfl, rfl⟩
    · simp only [h, and_self]

/-! ## Lemmas on keys and frames -/

theorem get_congr (c c' : simplecache) (now : Int) (k : String)
    (h : mapGet c'.items k = mapGet c.items k) : get c' now k = get c now k := by
  simp only [get, h]

theorem mem_mapKeys_mapSet (m : Items) (k k' : String) (v : cacheEntry) :
    k ∈ mapKeys (mapSet m k' v) ↔ k ∈ mapKeys m ∨ k = k' := by
  induction m with
  | nil => simp [mapSet, mapKeys]
  | cons hd tl ih =>
    obtain ⟨k₀, e⟩ := hd
    by_cases h₀ : k₀ = k'
    · subst h₀
      simp only [mapSet, if_true, mapKeys, List.map_cons, List.mem_cons]
      tauto
    · simp only [mapSet, h₀, if_false, mapKeys, List.map_cons, List.mem_cons]
      simp only [mapKeys] at ih
      rw [ih]
      tauto

theorem mem_mapKeys_mergeStep (now : Int) (m : Items) (kv : String × cacheEntry) (k : String) :
    k ∈ mapKeys (mergeStep now m kv) ↔ k ∈ mapKeys m ∨ k = kv.1 := by
  unfold mergeStep
  split
  · exact mem_mapKeys_mapSet m k kv.1 kv.2
  · rename_i ov hov
    split_ifs
    · exact mem_mapKeys_mapSet m k kv.1 kv.2
    · constructor
      · intro h
        exact Or.inl h
      · rintro (h | h)
        · exact h
        · rw [h]
          exact mem_mapKeys_of_mapGet m kv.1 ov hov

theorem mem_mapKeys_mergeItems (now : Int) (d m : Items) (k : String) :
    k ∈ mapKeys (mergeItems now m d) ↔ k ∈ mapKeys m ∨ k ∈ mapKeys d := by
  induction d generalizing m with
  | nil => simp [mergeItems, mapKeys]
  | cons kv rest ih =>
    have h := ih (mergeStep now m kv)
    simp only [mergeItems, List.foldl_cons] at h ⊢
    rw [h, mem_mapKeys_mergeStep]
    simp only [mapKeys, List.map_cons, List.mem_cons]
    tauto

theorem loadFromFile_items (env : Env) (now : Int) (c : simplecache) (filePath : String)
    (stream : Bytes) (decoded : Items)
    (hopen : env.osOpen filePath = .ok stream) (hdec : env.gobDecode stream = .ok decoded) :
    (loadFromFile env now c filePath).2
      = { c with items := mergeItems now c.items decoded } := by
  simp [loadFromFile, hopen, hdec]

/-! ## Lemmas on merging twice, and on get against Expired -/

theorem mapSet_of_mapGet_eq (m : Items) (k : String) (v : cacheEntry)
    (h : mapGet m k = some v) : mapSet m k v = m := by
  induction m with
  | nil => simp [mapGet] at h
  | cons hd tl ih =>
    obtain ⟨k₀, e⟩ := hd
    by_cases h₀ : k₀ = k
    · subst h₀
      simp only [mapGet, if_true, Option.some.injEq] at h
      simp [mapSet, h]
    · simp only [mapGet, h₀, if_false] at h
      simp [mapSet, h₀, ih h]

theorem mapGet_of_mem_nodup (d : Items) (k : String) (v : cacheEntry)
    (hnodup : (mapKeys d).Nodup) (hmem : (k, v) ∈ d) : mapGet d k = some v := by
  induction d with
  | nil => simp at hmem
  | cons hd tl ih =>
    obtain ⟨k₀, e⟩ := hd
    simp only [mapKeys, List.map_cons, List.nodup_cons] at hnodup
    rcases List.mem_cons.mp hmem with h | h
    · simp only [Prod.mk.injEq] at h
      simp [mapGet, h.1, h.2]
    · have hk : k ∈ mapKeys tl := List.mem_map.mpr ⟨(k, v), h, rfl⟩
      have hne : k₀ ≠ k := fun heq => hnodup.1 (heq ▸ hk)
      simp only [mapGet, hne, if_false]
      exact ih hnodup.2 h

/-- A map that already holds, under every key of `d`, a fresh entry or the entry of `d` is not
changed by the merge loop. -/
theorem mergeItems_eq_self (now : Int) (d m : Items)
    (h : ∀ kv ∈ d, ∃ ov, mapGet m kv.1 = some ov ∧ (ov.Expired now = false ∨ ov = kv.2)) :
    mergeItems now m d = m := by
  induction d with
  | nil => rfl
  | cons kv rest ih =>
    have hstep : mergeStep now m kv = m := by
      obtain ⟨ov, hov, hcase⟩ := h kv (List.mem_cons_self kv rest)
      simp only [mergeStep, hov]
      rcases hcase with hfresh | heq
      · simp [hfresh]
      · split_ifs
        · rw [← heq]
          exact mapSet_of_mapGet_eq m kv.1 ov hov
        · rfl
    simp only [mergeItems, List.foldl_cons, hstep]
    exact ih (fun kv' hkv' => h kv' (List.mem_cons_of_mem kv hkv'))

theorem mergeItems_saturated (now : Int) (d m : Items) (hnodup : (mapKeys d).Nodup) :
    ∀ kv ∈ d, ∃ ov, mapGet (mergeItems now m d) kv.1 = some ov
      ∧ (ov.Expired now = false ∨ ov = kv.2) := by
  intro kv hkv
  have hd : mapGet d kv.1 = some kv.2 := mapGet_of_mem_nodup d kv.1 kv.2 hnodup hkv
  cases hm : mapGet m kv.1 with
  | none =>
    exact ⟨kv.2, mergeItems_get_filled now d m kv.1 kv.2 hnodup hd (Or.inl hm), Or.inr rfl⟩
  | some ov =>
    cases hexp : ov.Expired now with
    | true =>
      exact ⟨kv.2, mergeItems_get_filled now d m kv.1 kv.2 hnodup hd
        (Or.inr ⟨ov, hm, hexp⟩), Or.inr rfl⟩
    | false =>
      exact ⟨ov, mergeItems_get_fresh now d m kv.1 ov hm hexp, Or.inl hexp⟩

/-- For an entry with `Expiration >= 0`, the test inlined in `get` agrees with `Expired`. -/
theorem get_found_iff_of_nonneg (c : simplecache) (now : Int) (k : String) (e : cacheEntry)
    (h : mapGet c.items k = some e) (hnonneg : 0 ≤ e.Expiration) :
    (get c now k).2 = true ↔ e.Expired now = false := by
  rw [expired_eq_false_iff]
  simp only [get, h]
  split_ifs with h₁ h₂
  · simp only [Bool.false_eq_true, false_iff, not_or, not_le]
    exact ⟨by omega, h₂⟩
  · simp only [true_iff]
    exact Or.inr (by omega)
  · simp only [true_iff]
    exact Or.inl (by omega)

/-- When the live entry of `k` has `Expiration >= 0`, a pair that `get` returned as found
before a load is returned after it. -/
theorem get_after_load_of_nonneg (env : Env) (now : Int) (c : simplecache) (filePath : String)
    (stream : Bytes) (decoded : Items) (k v : String) (e : cacheEntry)
    (hopen : env.osOpen filePath = .ok stream) (hdec : env.gobDecode stream = .ok decoded)
    (he : mapGet c.items k = some e) (hnonneg : 0 ≤ e.Expiration)
    (hget : get c now k = (v, true)) :
    get (loadFromFile env now c filePath).2 now k = (v, true) := by
  have hfound : (get c now k).2 = true := by rw [hget]
  have hfresh := (get_found_iff_of_nonneg c now k e he hnonneg).mp hfound
  rw [loadFromFile_items env now c filePath stream decoded hopen hdec, ← hget]
  exact get_congr c _ now k
    ((mergeItems_get_fresh now decoded c.items k e he hfresh).trans he.symm)

/-! ## Lemmas on sequences of put calls -/

theorem mem_mapSet (m : Items) (k : String) (v : cacheEntry) (kv : String × cacheEntry)
    (h : kv ∈ mapSet m k v) : kv ∈ m ∨ kv = (k, v) := by
  induction m with
  | nil =>
    simp only [mapSet, List.mem_singleton] at h
    exact Or.inr h
  | cons hd tl ih =>
    obtain ⟨k₀, e⟩ := hd
    by_cases h₀ : k₀ = k
    · simp only [mapSet, h₀, if_true, List.mem_cons] at h
      rcases h with h | h
      · exact Or.inr h
      · exact Or.inl (List.mem_cons_of_mem _ h)
    · simp only [mapSet, h₀, if_false, List.mem_cons] at h
      rcases h with h | h
      · exact Or.inl (h ▸ List.mem_cons_self _ _)
      · rcases ih h with h' | h'
        · exact Or.inl (List.mem_cons_of_mem _ h')
        · exact Or.inr h'

theorem put_items (c : simplecache) (now : Int) (k v : String) (ttl : Int) :
    (put c now k v ttl).items
      = mapSet c.items k ⟨v, if resolvedTTL c ttl > 0 then wrapInt64 (now + resolvedTTL c ttl)
          else 0⟩ := rfl

theorem runPuts_defaultExpiration (c : simplecache) (calls : List PutCall) :
    (runPuts c calls).defaultExpiration = c.defaultExpiration := by
  induction calls generalizing c with
  | nil => rfl
  | cons p rest ih =>
    simp only [runPuts, List.foldl_cons] at ih ⊢
    rw [ih (put c p.now p.key p.value p.ttl)]
    rfl

/-- An invariant of the stored pairs that every put of a sequence establishes for the pair it
stores holds of every pair after the sequence. -/
theorem runPuts_invariant (Q : String × cacheEntry → Prop) (de : Int) (calls : List PutCall)
    (c : simplecache) (hde : c.defaultExpiration = de) (hinit : ∀ kv ∈ c.items, Q kv)
    (hput : ∀ p ∈ calls, ∀ c' : simplecache, c'.defaultExpiration = de →
      Q (p.key, ⟨p.value, if resolvedTTL c' p.ttl > 0
        then wrapInt64 (p.now + resolvedTTL c' p.ttl) else 0⟩)) :
    ∀ kv ∈ (runPuts c calls).items, Q kv := by
  induction calls generalizing c with
  | nil => simpa [runPuts] using hinit
  | cons p rest ih =>
    simp only [runPuts, List.foldl_cons]
    apply ih (put c p.now p.key p.value p.ttl) hde
    · intro kv hkv
      rw [put_items] at hkv
      rcases mem_mapSet _ _ _ _ hkv with h | h
      · exact hinit kv h
      · rw [h]
        exact hput p (List.mem_cons_self _ _) c hde
    · intro p' hp' c' hc'
      exact hput p' (List.mem_cons_of_mem _ hp') c' hc'

/-! ## Concrete worlds used to evaluate the code -/

/-- The bytes of the text `hello world`. -/
def helloWorld : Bytes := [104, 101, 108, 108, 111, 32, 119, 111, 114, 108, 100]

/-- A world in which every file exists and holds the gob stream of `stored`, every other stream
is rejected by the decoder, and no call fails otherwise. The stream of `stored` is `[0]`. -/
def worldWith (stored : Items) : Env where
  osOpen := fun _ => .ok [0]
  osCreate := fun _ => none
  fpClose := fun _ => none
  gobDecode := fun b => if b = [0] then .ok stored else .error (GoError.gob "unexpected EOF")
  gobRegisterPanics := fun _ => false
  gobEncode := fun _ => .ok [0]

/-- A world in which every file holds the text `hello world`, which the decoder rejects. -/
def worldGarbage : Env where
  osOpen := fun _ => .ok helloWorld
  osCreate := fun _ => none
  fpClose := fun _ => none
  gobDecode := fun _ => .error (GoError.gob "gob: encoded unsigned integer out of range")
  gobRegisterPanics := fun _ => false
  gobEncode := fun _ => .ok [0]

/-- A world without files: `os.Open` fails. -/
def worldNoFile : Env where
  osOpen := fun _ => .error (GoError.os "no such file or directory")
  osCreate := fun _ => none
  fpClose := fun _ => none
  gobDecode := fun _ => .ok []
  gobRegisterPanics := fun _ => false
  gobEncode := fun _ => .ok [0]

/-- A world in which `gob.Register` panics on every value. -/
def worldRegisterPanics : Env where
  osOpen := fun _ => .ok [0]
  osCreate := fun _ => none
  fpClose := fun _ => none
  gobDecode := fun _ => .ok []
  gobRegisterPanics := fun _ => true
  gobEncode := fun _ => .ok [0]

/-- A world in which `Encode` panics. -/
def worldEncodePanics : Env where
  osOpen := fun _ => .ok [0]
  osCreate := fun _ => none
  fpClose := fun _ => none
  gobDecode := fun _ => .ok []
  gobRegisterPanics := fun _ => false
  gobEncode := fun _ => .panics

/-- A world in which the encoder writes, for every entry of the map it is handed, the
expiration of that entry, and no call fails. -/
def worldListing : Env where
  osOpen := fun _ => .ok [0]
  osCreate := fun _ => none
  fpClose := fun _ => none
  gobDecode := fun _ => .ok []
  gobRegisterPanics := fun _ => false
  gobEncode := fun m => .ok (m.map (fun kv => kv.2.Expiration.toNat))

/-- Five minutes, in nanoseconds. -/
def fiveMinutes : Int := 300000000000

/-! ## Claims -/

/-- C1 (evaluation at the failing input). A cache built by `New` loads a file whose map holds
`"k"` with `Expiration = -1`; at the clock reading `1` the entry has `Expiration != 0` and
`now > Expiration`, `Expired` reports it expired, and `get` still returns `("v", true)`
instead of `("", false)`. -/
theorem get_serves_negative_expiration :
    mapGet (loadFromFile (worldWith [("k", ⟨"v", -1⟩)]) 1 (New fiveMinutes) "omp.cache").2.items "k"
        = some ⟨"v", -1⟩
      ∧ (⟨"v", -1⟩ : cacheEntry).Expiration ≠ 0
      ∧ (1 : Int) > (⟨"v", -1⟩ : cacheEntry).Expiration
      ∧ (⟨"v", -1⟩ : cacheEntry).Expired 1 = true
      ∧ get (loadFromFile (worldWith [("k", ⟨"v", -1⟩)]) 1 (New fiveMinutes) "omp.cache").2 1 "k"
        = ("v", true) := by
  decide

/-- C2. Merge precedence of load: when the live cache holds under `K` an entry that is not
expired at the load instant (`Expiration = 0` or `now <= Expiration`), then for every decoded
map (whatever it holds for `K`) the entry of `K` after `loadFromFile` is that same live entry,
value and expiration, and `get K` returns the live value. -/
theorem loadFromFile_keeps_live_entry (env : Env) (now : Int) (c : simplecache)
    (filePath : String) (stream : Bytes) (decoded : Items) (K : String) (e : cacheEntry)
    (hopen : env.osOpen filePath = .ok stream) (hdec : env.gobDecode stream = .ok decoded)
    (hlive : mapGet c.items K = some e) (hfresh : e.Expiration = 0 ∨ now ≤ e.Expiration) :
    mapGet (loadFromFile env now c filePath).2.items K = some e
      ∧ get (loadFromFile env now c filePath).2 now K = (e.Value, true) := by
  have hitems : (loadFromFile env now c filePath).2.items = mergeItems now c.items decoded := by
    simp [loadFromFile, hopen, hdec]
  have hkept : mapGet (loadFromFile env now c filePath).2.items K = some e := by
    rw [hitems]
    exact mergeItems_get_fresh now decoded c.items K e hlive
      ((expired_eq_false_iff e now).mpr hfresh)
  exact ⟨hkept, get_of_fresh _ now K e hkept hfresh⟩

/-- C2 at a concrete input: the live cache holds `"my_key" -> ("live", 50)`, the file holds
`"my_key" -> ("stored", 90)`, and the load happens at the clock reading `10`. -/
theorem loadFromFile_keeps_live_entry_witness :
    mapGet (loadFromFile (worldWith [("my_key", ⟨"stored", 90⟩)]) 10
        ⟨-1, [("my_key", ⟨"live", 50⟩)]⟩ "omp.cache").2.items "my_key" = some ⟨"live", 50⟩
      ∧ get (loadFromFile (worldWith [("my_key", ⟨"stored", 90⟩)]) 10
        ⟨-1, [("my_key", ⟨"live", 50⟩)]⟩ "omp.cache").2 10 "my_key" = ("live", true) :=
  loadFromFile_keeps_live_entry (worldWith [("my_key", ⟨"stored", 90⟩)]) 10
    ⟨-1, [("my_key", ⟨"live", 50⟩)]⟩ "omp.cache" [0] [("my_key", ⟨"stored", 90⟩)] "my_key"
    ⟨"live", 50⟩ rfl rfl (by decide) (by decide)

/-- C3. Merge fill-in of load: when the live cache has no entry for `K`, or one that `Expired`
reports expired at the load instant, and the decoded map (a map: its keys are distinct) holds
under `K` an entry `(V, E)` that is not expired (`E = 0` or `now <= E`), then after
`loadFromFile` the live entry of `K` is `(V, E)` and `get K` at that instant returns
`(V, true)`. -/
theorem loadFromFile_fills_in (env : Env) (now : Int) (c : simplecache)
    (filePath : String) (stream : Bytes) (decoded : Items) (K V : String) (E : Int)
    (hopen : env.osOpen filePath = .ok stream) (hdec : env.gobDecode stream = .ok decoded)
    (hmap : (mapKeys decoded).Nodup) (hstored : mapGet decoded K = some ⟨V, E⟩)
    (hfresh : E = 0 ∨ now ≤ E)
    (hlive : mapGet c.items K = none
      ∨ ∃ ov, mapGet c.items K = some ov ∧ ov.Expired now = true) :
    mapGet (loadFromFile env now c filePath).2.items K = some ⟨V, E⟩
      ∧ get (loadFromFile env now c filePath).2 now K = (V, true) := by
  have hitems : (loadFromFile env now c filePath).2.items = mergeItems now c.items decoded := by
    simp [loadFromFile, hopen, hdec]
  have hfilled : mapGet (loadFromFile env now c filePath).2.items K = some ⟨V, E⟩ := by
    rw [hitems]
    exact mergeItems_get_filled now decoded c.items K ⟨V, E⟩ hmap hstored hlive
  exact ⟨hfilled, get_of_fresh _ now K ⟨V, E⟩ hfilled hfresh⟩

/-- C3 at the input of `TestLoadFromFileExpiredKey`: a cache built by `New` with a default of
five minutes loads a file that holds `"my_key" -> "xxx"`. -/
theorem loadFromFile_fills_in_witness :
    mapGet (loadFromFile (worldWith [("my_key", ⟨"xxx", 90⟩)]) 10 (New fiveMinutes)
        "omp431810701").2.items "my_key" = some ⟨"xxx", 90⟩
      ∧ get (loadFromFile (worldWith [("my_key", ⟨"xxx", 90⟩)]) 10 (New fiveMinutes)
        "omp431810701").2 10 "my_key" = ("xxx", true) :=
  loadFromFile_fills_in (worldWith [("my_key", ⟨"xxx", 90⟩)]) 10 (New fiveMinutes)
    "omp431810701" [0] [("my_key", ⟨"xxx", 90⟩)] "my_key" "xxx" 90
    rfl rfl (by decide) (by decide) (by decide) (Or.inl (by decide))

/-- C4. Load failure is atomic: when `os.Open` fails with `e`, or the file opens and the decoder
returns the error `e`, `loadFromFile` returns `e` and the cache (entry map and default TTL) is
the cache of before the call. -/
theorem loadFromFile_failure_atomic (env : Env) (now : Int) (c : simplecache)
    (filePath : String) (e : GoError)
    (hfail : env.osOpen filePath = .error e
      ∨ ∃ stream, env.osOpen filePath = .ok stream ∧ env.gobDecode stream = .error e) :
    loadFromFile env now c filePath = (some e, c) := by
  rcases hfail with h | ⟨stream, h, hdec⟩
  · simp [loadFromFile, h]
  · simp [loadFromFile, h, hdec]

/-- C4 at a concrete input: the file holds the text `hello world`, the decoder rejects it, and
the cache keeps its entry. -/
theorem loadFromFile_failure_atomic_witness :
    loadFromFile worldGarbage 10 ⟨fiveMinutes, [("my_key", ⟨"xxx", 50⟩)]⟩ "omp.cache"
      = (some (GoError.gob "gob: encoded unsigned integer out of range"),
          ⟨fiveMinutes, [("my_key", ⟨"xxx", 50⟩)]⟩) :=
  loadFromFile_failure_atomic worldGarbage 10 ⟨fiveMinutes, [("my_key", ⟨"xxx", 50⟩)]⟩
    "omp.cache" (GoError.gob "gob: encoded unsigned integer out of range")
    (Or.inr ⟨helloWorld, rfl, rfl⟩)

/-- C5. Save/load round trip. In a world where the file can be created and closed, `gob.Register`
accepts the string values, the encoder writes `stream`, the file then holds `stream`, and the
decoder turns `stream` back into the map it was made from (distinct keys, the same entry under
every key): `saveToFile` returns `nil` and has written `stream`, and a cache built by `New d`
that loads the file holds, for every entry `(k, e)` of `c` that is not expired at the load
instant, the entry `e` under `k`, and `get k` on it returns what `get k` returns on `c`. -/
theorem save_load_round_trip (env : Env) (now d : Int) (c : simplecache) (filePath : String)
    (stream : Bytes) (decoded : Items) (k : String) (e : cacheEntry)
    (hcreate : env.osCreate filePath = none)
    (hregister : ∀ value, env.gobRegisterPanics value = false)
    (hencode : env.gobEncode c.items = .ok stream)
    (hclose : env.fpClose filePath = none)
    (hopen : env.osOpen filePath = .ok stream)
    (hdecode : env.gobDecode stream = .ok decoded)
    (hmap : (mapKeys decoded).Nodup)
    (hcodec : ∀ key, mapGet decoded key = mapGet c.items key)
    (hentry : mapGet c.items k = some e) (hfresh : e.Expired now = false) :
    (saveToFile env c filePath).err = none
      ∧ (saveToFile env c filePath).stream = some stream
      ∧ mapGet (loadFromFile env now (New d) filePath).2.items k = some e
      ∧ get (loadFromFile env now (New d) filePath).2 now k = get c now k := by
  have hfresh' := (expired_eq_false_iff e now).mp hfresh
  have hany : c.items.any (fun kv => env.gobRegisterPanics kv.2.Value) = false := by
    simp [hregister]
  have hitems : (loadFromFile env now (New d) filePath).2.items
      = mergeItems now (New d).items decoded := by
    simp [loadFromFile, hopen, hdecode]
  have hloaded : mapGet (loadFromFile env now (New d) filePath).2.items k = some e := by
    rw [hitems]
    exact mergeItems_get_filled now decoded (New d).items k e hmap
      (by rw [hcodec k]; exact hentry) (Or.inl rfl)
  refine ⟨?_, ?_, hloaded, ?_⟩
  · simp [saveToFile, hcreate, hany, hencode, hclose]
  · simp [saveToFile, hcreate, hany, hencode]
  · rw [get_of_fresh _ now k e hloaded hfresh', get_of_fresh c now k e hentry hfresh']

/-- C5 at the input of `TestSaveToFile`: the cache `New(5 * time.Minute)` after
`put("my_key", "xxx", DefaultExpiration)` at the clock reading `10`, saved, and loaded into a
new cache at the clock reading `20`. -/
theorem save_load_round_trip_witness :
    (saveToFile (worldWith [("my_key", ⟨"xxx", 300000000010⟩)])
        (put (New fiveMinutes) 10 "my_key" "xxx" DefaultExpiration) "omp").err = none
      ∧ (saveToFile (worldWith [("my_key", ⟨"xxx", 300000000010⟩)])
        (put (New fiveMinutes) 10 "my_key" "xxx" DefaultExpiration) "omp").stream = some [0]
      ∧ mapGet (loadFromFile (worldWith [("my_key", ⟨"xxx", 300000000010⟩)]) 20
        (New fiveMinutes) "omp").2.items "my_key" = some ⟨"xxx", 300000000010⟩
      ∧ get (loadFromFile (worldWith [("my_key", ⟨"xxx", 300000000010⟩)]) 20
        (New fiveMinutes) "omp").2 20 "my_key"
        = get (put (New fiveMinutes) 10 "my_key" "xxx" DefaultExpiration) 20 "my_key" :=
  save_load_round_trip (worldWith [("my_key", ⟨"xxx", 300000000010⟩)]) 20 fiveMinutes
    (put (New fiveMinutes) 10 "my_key" "xxx" DefaultExpiration) "omp" [0]
    [("my_key", ⟨"xxx", 300000000010⟩)] "my_key" ⟨"xxx", 300000000010⟩
    rfl (fun _ => rfl) rfl rfl rfl rfl (by decide) (fun _ => rfl) (by decide) (by decide)

/-- C6. Default-TTL resolution: for a cache built by `New d` with `d > 0`, after
`put(k, v, DefaultExpiration)` at the clock reading `t`, with `t + d` inside the signed 64-bit
range, the entry of `k` is `(v, t + d)`; `get k` at any reading `t'` with `t <= t' <= t + d`
returns `(v, true)`; and, the clock reading of the put being a time not before the Unix epoch
(`t >= 0`), `get k` at any reading `t' > t + d` returns `("", false)`. -/
theorem default_ttl_resolution (d t t' : Int) (k v : String)
    (hd : 0 < d) (hlo : -2 ^ 63 ≤ t + d) (hfit : t + d < 2 ^ 63) :
    mapGet (put (New d) t k v DefaultExpiration).items k = some ⟨v, t + d⟩
      ∧ (t ≤ t' → t' ≤ t + d → get (put (New d) t k v DefaultExpiration) t' k = (v, true))
      ∧ (0 ≤ t → t' > t + d
          → get (put (New d) t k v DefaultExpiration) t' k = ("", false)) := by
  have hne : d ≠ 0 := by omega
  have hentry : mapGet (put (New d) t k v DefaultExpiration).items k = some ⟨v, t + d⟩ := by
    rw [put_get_entry]
    simp only [DefaultExpiration, New, newCache, hne, if_true, if_false, gt_iff_lt, hd]
    rw [wrapInt64_of_fits (t + d) hlo hfit]
  refine ⟨hentry, ?_, ?_⟩
  · intro _ hle
    exact get_of_fresh _ t' k ⟨v, t + d⟩ hentry (Or.inr hle)
  · intro ht hgt
    exact get_of_positive_past _ t' k ⟨v, t + d⟩ hentry (by show 0 < t + d; omega) hgt

/-- C6 at the input of `TestInMemory`: `New(5 * time.Minute)`, key `"my_key"`, value `"xxx"`,
the put at the clock reading `10`; read at `20`, inside the lifetime, and at `300000000011`,
one nanosecond after it. -/
theorem default_ttl_resolution_witness :
    get (put (New fiveMinutes) 10 "my_key" "xxx" DefaultExpiration) 20 "my_key" = ("xxx", true)
      ∧ get (put (New fiveMinutes) 10 "my_key" "xxx" DefaultExpiration) 300000000011 "my_key"
        = ("", false) :=
  ⟨(default_ttl_resolution fiveMinutes 10 20 "my_key" "xxx" (by decide) (by decide)
      (by decide)).2.1 (by decide) (by decide),
    (default_ttl_resolution fiveMinutes 10 300000000011 "my_key" "xxx" (by decide) (by decide)
      (by decide)).2.2 (by decide) (by decide)⟩

/-- C7. Never-expires sentinel: for every cache, `put(k, v, NoExpiration)` stores the entry
`(v, 0)` under `k`, `get k` on the resulting cache returns `(v, true)` at every clock reading,
and so does `get k` on every cache in which the entry of `k` is still that one. -/
theorem put_noExpiration_never_expires (c : simplecache) (now : Int) (k v : String) :
    mapGet (put c now k v NoExpiration).items k = some ⟨v, 0⟩
      ∧ (∀ later : Int, get (put c now k v NoExpiration) later k = (v, true))
      ∧ (∀ (c' : simplecache) (later : Int),
          mapGet c'.items k = mapGet (put c now k v NoExpiration).items k
            → get c' later k = (v, true)) := by
  have hentry : mapGet (put c now k v NoExpiration).items k = some ⟨v, 0⟩ := by
    rw [put_get_entry]
    simp [NoExpiration, DefaultExpiration]
  refine ⟨hentry, ?_, ?_⟩
  · intro later
    exact get_of_fresh _ later k ⟨v, 0⟩ hentry (Or.inl rfl)
  · intro c' later h
    exact get_of_fresh c' later k ⟨v, 0⟩ (h.trans hentry) (Or.inl rfl)

/-- C7 at a concrete input: a cache with a default of five minutes, `put("my_key", "xxx",
NoExpiration)` at the reading `10`, then a put on another key, and `get` far later. -/
theorem put_noExpiration_never_expires_witness :
    get (put (put (New fiveMinutes) 10 "my_key" "xxx" NoExpiration) 11 "other" "yyy"
        DefaultExpiration) 9000000000000000000 "my_key" = ("xxx", true) :=
  (put_noExpiration_never_expires (New fiveMinutes) 10 "my_key" "xxx").2.2
    (put (put (New fiveMinutes) 10 "my_key" "xxx" NoExpiration) 11 "other" "yyy"
      DefaultExpiration) 9000000000000000000 (by decide)

/-- C8. Zero default means never expires: `newCache 0 m` (so `New 0`, which is `newCache 0` of
the empty map) has the default TTL `NoExpiration`; on such a cache `put(k, v,
DefaultExpiration)` stores the entry `(v, 0)`, and `get k` returns `(v, true)` at the put
instant and at every other clock reading. -/
theorem zero_default_never_expires (m : Items) (now : Int) (k v : String) :
    (New 0).defaultExpiration = NoExpiration
      ∧ (newCache 0 m).defaultExpiration = NoExpiration
      ∧ New 0 = newCache 0 []
      ∧ mapGet (put (newCache 0 m) now k v DefaultExpiration).items k = some ⟨v, 0⟩
      ∧ get (put (newCache 0 m) now k v DefaultExpiration) now k = (v, true)
      ∧ (∀ later : Int, get (put (newCache 0 m) now k v DefaultExpiration) later k
          = (v, true)) := by
  have hentry : mapGet (put (newCache 0 m) now k v DefaultExpiration).items k
      = some ⟨v, 0⟩ := by
    rw [put_get_entry]
    simp [newCache, DefaultExpiration]
  exact ⟨rfl, rfl, rfl, hentry, get_of_fresh _ now k ⟨v, 0⟩ hentry (Or.inl rfl),
    fun later => get_of_fresh _ later k ⟨v, 0⟩ hentry (Or.inl rfl)⟩

/-- C9. Positive-TTL put: for every cache, with `ttl > 0` and `now + ttl` inside the signed
64-bit range, after `put(k, v, ttl)` the entry of `k` is `(v, now + ttl)`, whether or not `k`
had an entry; and after a following put on `k` the entry of `k` is the one that put stores on
the original cache: nothing of the first entry is left. -/
theorem put_positive_ttl (c : simplecache) (now ttl : Int) (k v : String)
    (hpos : 0 < ttl) (hlo : -2 ^ 63 ≤ now + ttl) (hhi : now + ttl < 2 ^ 63) :
    mapGet (put c now k v ttl).items k = some ⟨v, now + ttl⟩
      ∧ (∀ (now₂ ttl₂ : Int) (v₂ : String),
          mapGet (put (put c now k v ttl) now₂ k v₂ ttl₂).items k
            = mapGet (put c now₂ k v₂ ttl₂).items k)
      ∧ (∀ (now₂ ttl₂ : Int) (v₂ : String), 0 < ttl₂ → -2 ^ 63 ≤ now₂ + ttl₂
          → now₂ + ttl₂ < 2 ^ 63
          → mapGet (put (put c now k v ttl) now₂ k v₂ ttl₂).items k
            = some ⟨v₂, now₂ + ttl₂⟩) := by
  have hput : ∀ (c₀ : simplecache) (n t : Int) (w : String), 0 < t → -2 ^ 63 ≤ n + t
      → n + t < 2 ^ 63 → mapGet (put c₀ n k w t).items k = some ⟨w, n + t⟩ := by
    intro c₀ n t w h₀ h₁ h₂
    have hne : t ≠ 0 := by omega
    rw [put_get_entry]
    simp only [DefaultExpiration, hne, if_false, gt_iff_lt, h₀, if_true]
    rw [wrapInt64_of_fits (n + t) h₁ h₂]
  refine ⟨hput c now ttl v hpos hlo hhi, ?_, ?_⟩
  · intro now₂ ttl₂ v₂
    rw [put_get_entry, put_get_entry, put_defaultExpiration]
  · intro now₂ ttl₂ v₂ h₀ h₁ h₂
    exact hput _ now₂ ttl₂ v₂ h₀ h₁ h₂

/-- C9 at a concrete input: an insert into the empty cache, and an overwrite of that entry. -/
theorem put_positive_ttl_witness :
    mapGet (put (New fiveMinutes) 10 "my_key" "xxx" 7).items "my_key" = some ⟨"xxx", 10 + 7⟩
      ∧ mapGet (put (put (New fiveMinutes) 10 "my_key" "xxx" 7) 12 "my_key" "yyy" 30).items
        "my_key" = some ⟨"yyy", 12 + 30⟩ :=
  ⟨(put_positive_ttl (New fiveMinutes) 10 7 "my_key" "xxx" (by decide) (by decide)
      (by decide)).1,
    (put_positive_ttl (New fiveMinutes) 10 7 "my_key" "xxx" (by decide) (by decide)
      (by decide)).2.2 12 30 "yyy" (by decide) (by decide) (by decide)⟩

/-- C10 (evaluation at the failing input). The cache of `TestSaveToFile` is saved in a world
where `gob.Register` panics, and in a world where `Encode` panics: the file is created, the
deferred function puts the `fmt.Errorf` value into the local variable `err`, and `saveToFile`
returns `nil`, not that error. -/
theorem saveToFile_panic_returns_nil_at_input :
    (saveToFile worldRegisterPanics
        (put (New fiveMinutes) 10 "my_key" "xxx" DefaultExpiration) "omp").err = none
      ∧ (saveToFile worldRegisterPanics
        (put (New fiveMinutes) 10 "my_key" "xxx" DefaultExpiration) "omp").localErr
        = some registerError
      ∧ (saveToFile worldEncodePanics
        (put (New fiveMinutes) 10 "my_key" "xxx" DefaultExpiration) "omp").err = none
      ∧ (saveToFile worldEncodePanics
        (put (New fiveMinutes) 10 "my_key" "xxx" DefaultExpiration) "omp").localErr
        = some registerError := by
  decide

/-- C11. Save is non-pruning and non-destructive: for every world and cache, the cache after
`saveToFile` is the cache before it (entry map and default TTL), whatever the call returns.
The encoder is called on the live entry map itself: a stream that `saveToFile` has written is
what `Encode` returns on `c.items`, every entry included; when the file is created and the
registration loop does not panic, a stream or an error of `Encode` on `c.items` is the stream
written or the error returned; and under a codec that decodes what it encoded, the written
stream decodes to `c.items`. -/
theorem saveToFile_non_destructive (env : Env) (c : simplecache) (filePath : String) :
    (saveToFile env c filePath).cache = c
      ∧ (∀ s : Bytes, (saveToFile env c filePath).stream = some s
          → env.gobEncode c.items = .ok s)
      ∧ (∀ s : Bytes, env.osCreate filePath = none
          → c.items.any (fun kv => env.gobRegisterPanics kv.2.Value) = false
          → env.gobEncode c.items = .ok s
          → (saveToFile env c filePath).stream = some s
            ∧ (saveToFile env c filePath).err = env.fpClose filePath)
      ∧ (∀ e : GoError, env.osCreate filePath = none
          → c.items.any (fun kv => env.gobRegisterPanics kv.2.Value) = false
          → env.gobEncode c.items = .err e
          → (saveToFile env c filePath).err = some e)
      ∧ (∀ s : Bytes, (saveToFile env c filePath).stream = some s
          → (∀ m : Items, env.gobEncode m = .ok s → env.gobDecode s = .ok m)
          → env.gobDecode s = .ok c.items) := by
  have hstream : ∀ s : Bytes, (saveToFile env c filePath).stream = some s
      → env.gobEncode c.items = .ok s := by
    intro s
    unfold saveToFile
    split
    · simp
    · split_ifs
      · simp
      · split
        · simp
        · simp
        · rename_i stream henc
          intro h
          rw [henc, Option.some.inj h]
  refine ⟨?_, hstream, ?_, ?_, ?_⟩
  · unfold saveToFile
    split
    · rfl
    · split_ifs
      · rfl
      · split <;> rfl
  · intro s hcreate hany henc
    simp [saveToFile, hcreate, hany, henc]
  · intro e hcreate hany henc
    simp [saveToFile, hcreate, hany, henc]
  · intro s hs hcodec
    exact hcodec c.items (hstream s hs)

/-- C11 at a concrete input: in a world whose encoder writes the expiration of every entry it
is handed, a cache that holds an entry long expired (`Expiration = 5`) next to a never-expiring
one is saved; the stream lists both entries, the call returns `nil`, and the cache is as
before. -/
theorem saveToFile_non_destructive_witness :
    (saveToFile worldListing ⟨fiveMinutes, [("old", ⟨"stale", 5⟩), ("my_key", ⟨"xxx", 0⟩)]⟩
        "omp").cache = ⟨fiveMinutes, [("old", ⟨"stale", 5⟩), ("my_key", ⟨"xxx", 0⟩)]⟩
      ∧ (saveToFile worldListing ⟨fiveMinutes, [("old", ⟨"stale", 5⟩), ("my_key", ⟨"xxx", 0⟩)]⟩
        "omp").stream = some [5, 0]
      ∧ (saveToFile worldListing ⟨fiveMinutes, [("old", ⟨"stale", 5⟩), ("my_key", ⟨"xxx", 0⟩)]⟩
        "omp").err = none :=
  ⟨(saveToFile_non_destructive worldListing
      ⟨fiveMinutes, [("old", ⟨"stale", 5⟩), ("my_key", ⟨"xxx", 0⟩)]⟩ "omp").1,
    (saveToFile_non_destructive worldListing
      ⟨fiveMinutes, [("old", ⟨"stale", 5⟩), ("my_key", ⟨"xxx", 0⟩)]⟩ "omp").2.2.1
      [5, 0] rfl rfl rfl⟩

/-- C12. The call `get` has no side effect on the cache: the cache after the call (entry map
and default TTL) is the cache before it; in particular an entry with a positive expiration in
the past, which `get` reports as `("", false)`, is still in the map after the call. -/
theorem get_no_side_effect (c : simplecache) (now : Int) (key : String) :
    (getStep c now key).2 = c
      ∧ (getStep c now key).2.items = c.items
      ∧ (getStep c now key).2.defaultExpiration = c.defaultExpiration
      ∧ (∀ e : cacheEntry, mapGet c.items key = some e → 0 < e.Expiration
          → now > e.Expiration
          → (getStep c now key).1 = ("", false)
            ∧ mapGet (getStep c now key).2.items key = some e) := by
  refine ⟨rfl, rfl, rfl, ?_⟩
  intro e he hpos hpast
  exact ⟨get_of_positive_past c now key e he hpos hpast, he⟩

/-- C12 at a concrete input: the entry of `"my_key"` expired at `50`; `get` at `60` reports it
as not found and the entry stays in the map. -/
theorem get_no_side_effect_witness :
    (getStep ⟨fiveMinutes, [("my_key", ⟨"xxx", 50⟩)]⟩ 60 "my_key").1 = ("", false)
      ∧ mapGet (getStep ⟨fiveMinutes, [("my_key", ⟨"xxx", 50⟩)]⟩ 60 "my_key").2.items "my_key"
        = some ⟨"xxx", 50⟩ :=
  (get_no_side_effect ⟨fiveMinutes, [("my_key", ⟨"xxx", 50⟩)]⟩ 60 "my_key").2.2.2
    ⟨"xxx", 50⟩ (by decide) (by decide) (by decide)

/-- C18. Frame of the merge of load: after a `loadFromFile` that decoded `decoded`, the entry
(or absence) of every key that is not a key of `decoded` is as before, the keys of the cache
are the keys it had together with the keys of `decoded` (no key is removed), and the default
TTL is as before. -/
theorem loadFromFile_frame (env : Env) (now : Int) (c : simplecache) (filePath : String)
    (stream : Bytes) (decoded : Items)
    (hopen : env.osOpen filePath = .ok stream) (hdec : env.gobDecode stream = .ok decoded) :
    (∀ k : String, k ∉ mapKeys decoded
        → mapGet (loadFromFile env now c filePath).2.items k = mapGet c.items k)
      ∧ (∀ k : String, k ∈ mapKeys (loadFromFile env now c filePath).2.items
          ↔ k ∈ mapKeys c.items ∨ k ∈ mapKeys decoded)
      ∧ (loadFromFile env now c filePath).2.defaultExpiration = c.defaultExpiration := by
  rw [loadFromFile_items env now c filePath stream decoded hopen hdec]
  refine ⟨?_, ?_, rfl⟩
  · intro k hk
    exact mergeItems_get_not_mem now decoded c.items k hk
  · intro k
    exact mem_mapKeys_mergeItems now decoded c.items k

/-- C18 at a concrete input: the live cache holds `"a"` (expired) and `"b"`, the file holds
`"a"` and `"c"`; after the load at `10` the entry of `"b"` is as before, the keys are `"a"`,
`"b"`, `"c"`, and the default TTL is as before. -/
theorem loadFromFile_frame_witness :
    mapGet (loadFromFile (worldWith [("a", ⟨"A", 90⟩), ("c", ⟨"C", 90⟩)]) 10
        ⟨fiveMinutes, [("a", ⟨"old", 5⟩), ("b", ⟨"B", 5⟩)]⟩ "omp").2.items "b" = some ⟨"B", 5⟩
      ∧ mapKeys (loadFromFile (worldWith [("a", ⟨"A", 90⟩), ("c", ⟨"C", 90⟩)]) 10
        ⟨fiveMinutes, [("a", ⟨"old", 5⟩), ("b", ⟨"B", 5⟩)]⟩ "omp").2.items = ["a", "b", "c"]
      ∧ (loadFromFile (worldWith [("a", ⟨"A", 90⟩), ("c", ⟨"C", 90⟩)]) 10
        ⟨fiveMinutes, [("a", ⟨"old", 5⟩), ("b", ⟨"B", 5⟩)]⟩ "omp").2.defaultExpiration
        = fiveMinutes :=
  ⟨((loadFromFile_frame (worldWith [("a", ⟨"A", 90⟩), ("c", ⟨"C", 90⟩)]) 10
      ⟨fiveMinutes, [("a", ⟨"old", 5⟩), ("b", ⟨"B", 5⟩)]⟩ "omp" [0]
      [("a", ⟨"A", 90⟩), ("c", ⟨"C", 90⟩)] rfl rfl).1 "b" (by decide)).trans (by decide),
    by decide,
    (loadFromFile_frame (worldWith [("a", ⟨"A", 90⟩), ("c", ⟨"C", 90⟩)]) 10
      ⟨fiveMinutes, [("a", ⟨"old", 5⟩), ("b", ⟨"B", 5⟩)]⟩ "omp" [0]
      [("a", ⟨"A", 90⟩), ("c", ⟨"C", 90⟩)] rfl rfl).2.2⟩

/-- C19. Frame of put: for keys `k' != k`, `put(k, v, ttl)` leaves the entry (or absence) of
`k'` and the default TTL of the cache as they were, so `get(k')` at any one clock reading
returns the same pair before and after the put. -/
theorem put_frame (c : simplecache) (now later ttl : Int) (k k' v : String) (hne : k' ≠ k) :
    mapGet (put c now k v ttl).items k' = mapGet c.items k'
      ∧ (put c now k v ttl).defaultExpiration = c.defaultExpiration
      ∧ get (put c now k v ttl) later k' = get c later k' := by
  have hentry : mapGet (put c now k v ttl).items k' = mapGet c.items k' := by
    simp only [put]
    exact mapGet_mapSet_ne _ k k' _ hne
  exact ⟨hentry, rfl, get_congr c _ later k' hentry⟩

/-- C19 at a concrete input: a put on `"other"` leaves `"my_key"` as it was. -/
theorem put_frame_witness :
    mapGet (put ⟨fiveMinutes, [("my_key", ⟨"xxx", 50⟩)]⟩ 10 "other" "yyy" 7).items "my_key"
        = mapGet (⟨fiveMinutes, [("my_key", ⟨"xxx", 50⟩)]⟩ : simplecache).items "my_key"
      ∧ (put ⟨fiveMinutes, [("my_key", ⟨"xxx", 50⟩)]⟩ 10 "other" "yyy" 7).defaultExpiration
        = (⟨fiveMinutes, [("my_key", ⟨"xxx", 50⟩)]⟩ : simplecache).defaultExpiration
      ∧ get (put ⟨fiveMinutes, [("my_key", ⟨"xxx", 50⟩)]⟩ 10 "other" "yyy" 7) 20 "my_key"
        = get ⟨fiveMinutes, [("my_key", ⟨"xxx", 50⟩)]⟩ 20 "my_key" :=
  put_frame ⟨fiveMinutes, [("my_key", ⟨"xxx", 50⟩)]⟩ 10 20 7 "other" "my_key" "yyy"
    (by decide)

/-- C14 (counterexample). The file holds `"k" -> ("v", 5)`, already expired at the load instant
`10`; a cache built by `New` loads it. The merge copies the entry into the live map, it is not
dropped: the live map holds an entry that `Expired` reports expired, and `get` does not find
it. -/
theorem load_copies_expired_counterexample :
    mapGet (loadFromFile (worldWith [("k", ⟨"v", 5⟩)]) 10 (New fiveMinutes) "omp").2.items "k"
        = some ⟨"v", 5⟩
      ∧ (⟨"v", 5⟩ : cacheEntry).Expired 10 = true
      ∧ mapGet (New fiveMinutes).items "k" = none
      ∧ get (loadFromFile (worldWith [("k", ⟨"v", 5⟩)]) 10 (New fiveMinutes) "omp").2 10 "k"
        = ("", false) := by
  decide

/-- C14 (amended). What load prunes is the live side: for every live cache and every decoded
map (distinct keys) that holds `v` under `k`, whether or not `v` is itself expired, after
`loadFromFile` the entry of `k` is `v` when the live cache had no entry for `k` or one that
`Expired` reports expired at the load instant, and it is the live entry when that one is not
expired. -/
theorem load_replaces_stale_live_entries (env : Env) (now : Int) (c : simplecache)
    (filePath : String) (stream : Bytes) (decoded : Items) (k : String) (v : cacheEntry)
    (hopen : env.osOpen filePath = .ok stream) (hdec : env.gobDecode stream = .ok decoded)
    (hmap : (mapKeys decoded).Nodup) (hstored : mapGet decoded k = some v) :
    ((mapGet c.items k = none ∨ ∃ ov, mapGet c.items k = some ov ∧ ov.Expired now = true)
        → mapGet (loadFromFile env now c filePath).2.items k = some v)
      ∧ (∀ ov : cacheEntry, mapGet c.items k = some ov → ov.Expired now = false
          → mapGet (loadFromFile env now c filePath).2.items k = some ov) := by
  rw [loadFromFile_items env now c filePath stream decoded hopen hdec]
  refine ⟨?_, ?_⟩
  · intro hlive
    exact mergeItems_get_filled now decoded c.items k v hmap hstored hlive
  · intro ov hov hfresh
    exact mergeItems_get_fresh now decoded c.items k ov hov hfresh

/-- C14 (amended) at a concrete input: the live cache holds `"a"` expired and `"b"` fresh, the
file holds an expired entry for each; at the load instant `10` the stored entry replaces the
expired live entry of `"a"`, and the fresh live entry of `"b"` stays. -/
theorem load_replaces_stale_live_entries_witness :
    mapGet (loadFromFile (worldWith [("a", ⟨"A", 7⟩), ("b", ⟨"B", 7⟩)]) 10
        ⟨fiveMinutes, [("a", ⟨"old", 5⟩), ("b", ⟨"live", 50⟩)]⟩ "omp").2.items "a"
        = some ⟨"A", 7⟩
      ∧ mapGet (loadFromFile (worldWith [("a", ⟨"A", 7⟩), ("b", ⟨"B", 7⟩)]) 10
        ⟨fiveMinutes, [("a", ⟨"old", 5⟩), ("b", ⟨"live", 50⟩)]⟩ "omp").2.items "b"
        = some ⟨"live", 50⟩ :=
  ⟨(load_replaces_stale_live_entries (worldWith [("a", ⟨"A", 7⟩), ("b", ⟨"B", 7⟩)]) 10
      ⟨fiveMinutes, [("a", ⟨"old", 5⟩), ("b", ⟨"live", 50⟩)]⟩ "omp" [0]
      [("a", ⟨"A", 7⟩), ("b", ⟨"B", 7⟩)] "a" ⟨"A", 7⟩ rfl rfl (by decide) (by decide)).1
      (Or.inr ⟨⟨"old", 5⟩, by decide, by decide⟩),
    (load_replaces_stale_live_entries (worldWith [("a", ⟨"A", 7⟩), ("b", ⟨"B", 7⟩)]) 10
      ⟨fiveMinutes, [("a", ⟨"old", 5⟩), ("b", ⟨"live", 50⟩)]⟩ "omp" [0]
      [("a", ⟨"A", 7⟩), ("b", ⟨"B", 7⟩)] "b" ⟨"B", 7⟩ rfl rfl (by decide) (by decide)).2
      ⟨"live", 50⟩ (by decide) (by decide)⟩

/-- C15 (evaluation at the failing input). A cache built by `New 5` stores `"k"` with a put at
the clock reading `-10`, so with `Expiration = -5`. At the reading `1`, `Expired` reports the
entry expired while `get` finds it: `found = true` is not equivalent to `Expired() = false`. -/
theorem get_disagrees_with_Expired :
    mapGet (put (New 5) (-10) "k" "v" DefaultExpiration).items "k" = some ⟨"v", -5⟩
      ∧ (get (put (New 5) (-10) "k" "v" DefaultExpiration) 1 "k").2 = true
      ∧ (⟨"v", -5⟩ : cacheEntry).Expired 1 = true
      ∧ ¬ ((get (put (New 5) (-10) "k" "v" DefaultExpiration) 1 "k").2 = true
          ↔ (⟨"v", -5⟩ : cacheEntry).Expired 1 = false) := by
  decide

/-- C16 (evaluation at the failing input). The live cache holds `"k" -> ("live", -1)` and the
file holds `"k" -> ("stored", 0)`. At the clock reading `1`, `get` returns `("live", true)`
before the load; the merge, which tests `Expired`, replaces the entry, and `get` at the same
reading returns `("stored", true)` after it. -/
theorem load_changes_successful_get :
    get ⟨fiveMinutes, [("k", ⟨"live", -1⟩)]⟩ 1 "k" = ("live", true)
      ∧ mapGet (loadFromFile (worldWith [("k", ⟨"stored", 0⟩)]) 1
        ⟨fiveMinutes, [("k", ⟨"live", -1⟩)]⟩ "omp").2.items "k" = some ⟨"stored", 0⟩
      ∧ get (loadFromFile (worldWith [("k", ⟨"stored", 0⟩)]) 1
        ⟨fiveMinutes, [("k", ⟨"live", -1⟩)]⟩ "omp").2 1 "k" = ("stored", true)
      ∧ get (loadFromFile (worldWith [("k", ⟨"stored", 0⟩)]) 1
        ⟨fiveMinutes, [("k", ⟨"live", -1⟩)]⟩ "omp").2 1 "k"
        ≠ get ⟨fiveMinutes, [("k", ⟨"live", -1⟩)]⟩ 1 "k" := by
  decide

/-- C20. The merge of load is idempotent at a fixed instant: for every live map, every decoded
map (distinct keys) and every clock reading, merging the decoded map a second time leaves the
entry map of the first merge, pair for pair; so a second `loadFromFile` of the same file at the
same reading leaves the cache of the first. -/
theorem merge_idempotent (env : Env) (now : Int) (c : simplecache) (filePath : String)
    (stream : Bytes) (decoded : Items)
    (hopen : env.osOpen filePath = .ok stream) (hdec : env.gobDecode stream = .ok decoded)
    (hmap : (mapKeys decoded).Nodup) :
    mergeItems now (mergeItems now c.items decoded) decoded = mergeItems now c.items decoded
      ∧ (loadFromFile env now (loadFromFile env now c filePath).2 filePath).2
        = (loadFromFile env now c filePath).2 := by
  have hidem : mergeItems now (mergeItems now c.items decoded) decoded
      = mergeItems now c.items decoded :=
    mergeItems_eq_self now decoded _ (mergeItems_saturated now decoded c.items hmap)
  refine ⟨hidem, ?_⟩
  rw [loadFromFile_items env now _ filePath stream decoded hopen hdec,
    loadFromFile_items env now c filePath stream decoded hopen hdec]
  simp only [hidem]

/-- C20 at a concrete input: the live cache holds `"a"` expired and `"b"` fresh; the file holds
`"a"` (itself expired), `"b"` and `"c"`; two loads at `10` give the cache of one load. -/
theorem merge_idempotent_witness :
    mergeItems 10 (mergeItems 10 [("a", ⟨"old", 5⟩), ("b", ⟨"live", 50⟩)]
        [("a", ⟨"A", 7⟩), ("b", ⟨"B", 90⟩), ("c", ⟨"C", 0⟩)])
        [("a", ⟨"A", 7⟩), ("b", ⟨"B", 90⟩), ("c", ⟨"C", 0⟩)]
      = mergeItems 10 [("a", ⟨"old", 5⟩), ("b", ⟨"live", 50⟩)]
        [("a", ⟨"A", 7⟩), ("b", ⟨"B", 90⟩), ("c", ⟨"C", 0⟩)] :=
  (merge_idempotent (worldWith [("a", ⟨"A", 7⟩), ("b", ⟨"B", 90⟩), ("c", ⟨"C", 0⟩)]) 10
    ⟨fiveMinutes, [("a", ⟨"old", 5⟩), ("b", ⟨"live", 50⟩)]⟩ "omp" [0]
    [("a", ⟨"A", 7⟩), ("b", ⟨"B", 90⟩), ("c", ⟨"C", 0⟩)] rfl rfl (by decide)).1

/-- C17. Non-negative expiration invariant: in the cache reached from `New d` (any `d`) by a
sequence of put calls, each made at a clock reading `now >= 0` and, when its resolved ttl is
positive, with `now + ttl < 2^63`, the default TTL is the one of `New d`, and every stored pair
has `Expiration >= 0` and was stored by a call of the sequence on its key, with its value,
with `Expiration = 0` exactly when the ttl resolved by that call was not positive, and with
`Expiration` greater than the clock reading of that call otherwise. -/
theorem expiration_nonneg_invariant (d : Int) (calls : List PutCall)
    (hcalls : ∀ p ∈ calls, 0 ≤ p.now
      ∧ (0 < resolvedTTL (New d) p.ttl → p.now + resolvedTTL (New d) p.ttl < 2 ^ 63)) :
    (runPuts (New d) calls).defaultExpiration = (New d).defaultExpiration
      ∧ ∀ kv ∈ (runPuts (New d) calls).items,
          0 ≤ kv.2.Expiration
            ∧ ∃ p ∈ calls, p.key = kv.1 ∧ p.value = kv.2.Value
              ∧ (kv.2.Expiration = 0 ↔ resolvedTTL (New d) p.ttl ≤ 0)
              ∧ (0 < resolvedTTL (New d) p.ttl → kv.2.Expiration > p.now) := by
  refine ⟨runPuts_defaultExpiration (New d) calls, ?_⟩
  refine runPuts_invariant (fun kv => 0 ≤ kv.2.Expiration
    ∧ ∃ p ∈ calls, p.key = kv.1 ∧ p.value = kv.2.Value
      ∧ (kv.2.Expiration = 0 ↔ resolvedTTL (New d) p.ttl ≤ 0)
      ∧ (0 < resolvedTTL (New d) p.ttl → kv.2.Expiration > p.now))
    (New d).defaultExpiration calls (New d) rfl ?_ ?_
  · intro kv hkv
    simp [New, newCache] at hkv
  · intro p hp c' hc'
    dsimp only
    obtain ⟨hnow, hfit⟩ := hcalls p hp
    have hres : resolvedTTL c' p.ttl = resolvedTTL (New d) p.ttl := by
      simp only [resolvedTTL, hc']
    rw [hres]
    by_cases hpos : 0 < resolvedTTL (New d) p.ttl
    · have hlt := hfit hpos
      have hwrap : wrapInt64 (p.now + resolvedTTL (New d) p.ttl)
          = p.now + resolvedTTL (New d) p.ttl :=
        wrapInt64_of_fits _ (by omega) hlt
      simp only [gt_iff_lt, hpos, if_true, hwrap]
      refine ⟨by omega, p, hp, rfl, rfl, ?_, ?_⟩
      · constructor
        · intro h
          omega
        · intro h
          omega
      · intro _
        omega
    · simp only [gt_iff_lt, hpos, if_false]
      refine ⟨le_refl 0, p, hp, rfl, rfl, ?_, ?_⟩
      · constructor
        · intro _
          omega
        · intro _
          trivial
      · intro h
        exact absurd h hpos

/-- C17 at a concrete input: `New(5 * time.Minute)`, then a put with the default ttl at the
reading `10`, a put with `NoExpiration` at `11` and a put with the ttl `7` at `12`; the entry
stored under `"my_key"` has a non-negative expiration. -/
theorem expiration_nonneg_invariant_witness :
    (runPuts (New fiveMinutes) [⟨10, "my_key", "xxx", DefaultExpiration⟩,
        ⟨11, "other", "yyy", NoExpiration⟩, ⟨12, "third", "zzz", 7⟩]).defaultExpiration
        = (New fiveMinutes).defaultExpiration
      ∧ (0 : Int) ≤ (("my_key", ⟨"xxx", 300000000010⟩) : String × cacheEntry).2.Expiration :=
  ⟨(expiration_nonneg_invariant fiveMinutes [⟨10, "my_key", "xxx", DefaultExpiration⟩,
      ⟨11, "other", "yyy", NoExpiration⟩, ⟨12, "third", "zzz", 7⟩] (by decide)).1,
    ((expiration_nonneg_invariant fiveMinutes [⟨10, "my_key", "xxx", DefaultExpiration⟩,
      ⟨11, "other", "yyy", NoExpiration⟩, ⟨12, "third", "zzz", 7⟩] (by decide)).2
      ("my_key", ⟨"xxx", 300000000010⟩) (by decide)).1⟩

set_option maxRecDepth 100000 in
/-- Two goroutines that both run `put` never race on the map, whatever the schedule. -/
theorem put_put_race_free :
    ∀ schedule ∈ schedules 6,
      racesAfter ⟨⟨false, 0⟩, [putAccesses, putAccesses]⟩ schedule = false := by
  decide

/-- C13 (evaluation at the failing input). The accesses of `get` contain no `RLock` and no
`Lock`: `get` reads `c.items` without holding `c.mu`. With one goroutine in `put` and one in
`get`, after `put` has taken the lock the write of `put` and the read of `get` are both ready:
a data race on the map. -/
theorem get_takes_no_lock :
    Access.RLock ∉ getAccesses
      ∧ Access.Lock ∉ getAccesses
      ∧ runSchedule ⟨⟨false, 0⟩, [putAccesses, getAccesses]⟩ [0]
        = some ⟨⟨true, 0⟩, [[Access.writeItems, Access.Unlock], [Access.readItems]]⟩
      ∧ racesAfter ⟨⟨false, 0⟩, [putAccesses, getAccesses]⟩ [0] = true := by
  decide

end SimpleCache
